import Mathlib

/-!
Verification of the set entry API of `rustc_set_entry.rs` (hashbrown).

The entry state machine (the enum `RustcEntry` with its `Occupied` and
`Vacant` variants and the operations `rustc_entry`, `insert`, `or_insert`,
`get`, `remove`, `replace`, `into_value`, `insert_entry`) is embedded from
the source file. The underlying table locator is an external collaborator
of that file; its primitives (`locate`, `store`, `evict`, `overwrite`) are
modelled from the spec over an abstract storage: a list of stored
representations in probe order. The set's equivalence relation, which may
be coarser than identity of representations, is modelled as equality of a
key projection `key : T → K`.
-/

/-- Modelled from the spec: the underlying table's storage, abstracted as
the list of stored values in probe order. Membership of the set is up to
the set's equivalence relation, i.e. equality of `key`-projections. -/
def contains {T K : Type} (key : T → K) [DecidableEq K] : List T → T → Bool
  | [], _ => false
  | x :: xs, v => decide (key x = key v) || contains key xs v

/-- Modelled from the spec: `locate(value, hash) → SlotResult` performs one
probe sequence and returns the position of the first slot holding a value
equivalent to the query, or `none` when no equivalent value is present. -/
def locate {T K : Type} (key : T → K) [DecidableEq K] (v : T) : List T → Option Nat
  | [] => none
  | x :: xs => if key x = key v then some 0 else (locate key v xs).map (· + 1)

/-- An occupied entry: the set's storage at entry creation, the position of
the located slot, and the value used to create the entry (source:
`RustcOccupiedEntry`, whose inner map entry retains the queried key). -/
structure RustcOccupiedEntry (T : Type) where
  elems : List T
  idx : Nat
  queried : T

/-- A vacant entry: the set's storage at entry creation plus the queried
value, not yet stored (source: `RustcVacantEntry`). -/
structure RustcVacantEntry (T : Type) where
  elems : List T
  queried : T

/-- The entry sum type from the source: `Occupied` or `Vacant`. -/
inductive RustcEntry (T : Type) where
  | Occupied : RustcOccupiedEntry T → RustcEntry T
  | Vacant : RustcVacantEntry T → RustcEntry T

/-- `HashSet::rustc_entry`: wraps the locator's result into the entry sum
type, `Occupied` over the located slot or `Vacant` holding the query. -/
def rustc_entry {T K : Type} (key : T → K) [DecidableEq K] (s : List T) (v : T) :
    RustcEntry T :=
  match locate key v s with
  | some i => RustcEntry.Occupied ⟨s, i, v⟩
  | none => RustcEntry.Vacant ⟨s, v⟩

/-- Modelled from the spec: `store(reservation, value)` commits the queried
value into the reserved empty slot; the reservation is at the end of the
occupied region of the storage. -/
def RustcVacantEntry.store {T : Type} (e : RustcVacantEntry T) : List T :=
  e.elems ++ [e.queried]

/-- `RustcVacantEntry::insert`: stores the queried value, returning the set's
new contents (the handle is consumed, no entry remains accessible). -/
def RustcVacantEntry.insert {T : Type} (e : RustcVacantEntry T) : List T :=
  e.store

/-- `RustcVacantEntry::insert_entry`: same storage effect as `insert`, and
returns an occupied entry over the now-filled slot. -/
def RustcVacantEntry.insert_entry {T : Type} (e : RustcVacantEntry T) :
    RustcOccupiedEntry T :=
  ⟨e.store, e.elems.length, e.queried⟩

/-- `RustcVacantEntry::get`: the not-yet-stored queried value. -/
def RustcVacantEntry.get {T : Type} (e : RustcVacantEntry T) : T :=
  e.queried

/-- `RustcVacantEntry::into_value`: relinquishes the reservation and returns
the queried value; the set is untouched. -/
def RustcVacantEntry.into_value {T : Type} (e : RustcVacantEntry T) : T :=
  e.queried

/-- `RustcOccupiedEntry::get`: the value physically stored in the located
slot (total via a default that is never reached for entries produced by
`rustc_entry` or `insert_entry`, whose slot position is in range). -/
def RustcOccupiedEntry.get {T : Type} (e : RustcOccupiedEntry T) : T :=
  e.elems.getD e.idx e.queried

/-- Modelled from the spec: `evict(slot) → value` removes and returns the
value at the located slot. `RustcOccupiedEntry::remove` returns that value
paired with the set's new contents. -/
def RustcOccupiedEntry.remove {T : Type} (e : RustcOccupiedEntry T) : T × List T :=
  (e.get, e.elems.eraseIdx e.idx)

/-- Modelled from the spec: `overwrite(slot, value) → old value` replaces
the value at the located slot in place. `RustcOccupiedEntry::replace`
overwrites the stored value with the queried one and returns the old value
paired with the set's new contents. -/
def RustcOccupiedEntry.replace {T : Type} (e : RustcOccupiedEntry T) : T × List T :=
  (e.get, e.elems.set e.idx e.queried)

/-- `RustcEntry::insert`: an occupied entry is returned unchanged; a vacant
entry stores its value via `insert_entry`. -/
def RustcEntry.insert {T : Type} : RustcEntry T → RustcOccupiedEntry T
  | .Occupied e => e
  | .Vacant e => e.insert_entry

/-- `RustcEntry::or_insert`: inserts if vacant, discarding the handle;
returns the set's contents afterward. -/
def RustcEntry.or_insert {T : Type} : RustcEntry T → List T
  | .Occupied e => e.elems
  | .Vacant e => e.insert

/-- `RustcEntry::get`: the stored value for occupied, the queried value for
vacant. -/
def RustcEntry.get {T : Type} : RustcEntry T → T
  | .Occupied e => e.get
  | .Vacant e => e.get

/-- The set's contents as seen through a live entry handle. -/
def RustcEntry.elems {T : Type} : RustcEntry T → List T
  | .Occupied e => e.elems
  | .Vacant e => e.elems

/-- The hash-set invariant on the abstract storage: no two stored values
are equivalent (each equivalence class has at most one representative). -/
def distinctKeys {T K : Type} (key : T → K) [DecidableEq K] : List T → Bool
  | [] => true
  | x :: xs => !(contains key xs x) && distinctKeys key xs

/-- Performing `rustc_entry(v)` and then `or_insert` on the result, as one
operation on the set's contents. -/
def or_insert_op {T K : Type} (key : T → K) [DecidableEq K] (s : List T) (v : T) :
    List T :=
  (rustc_entry key s v).or_insert

section Lemmas

variable {T K : Type} (key : T → K) [DecidableEq K]

theorem contains_eq_false_iff (s : List T) (v : T) :
    contains key s v = false ↔ ∀ x ∈ s, key x ≠ key v := by
  induction s with
  | nil => simp [contains]
  | cons x xs ih =>
    simp [contains, ih]

theorem contains_eq_true_iff (s : List T) (v : T) :
    contains key s v = true ↔ ∃ x ∈ s, key x = key v := by
  induction s with
  | nil => simp [contains]
  | cons x xs ih =>
    simp [contains, ih]

theorem contains_append (l1 l2 : List T) (v : T) :
    contains key (l1 ++ l2) v = (contains key l1 v || contains key l2 v) := by
  induction l1 with
  | nil => simp [contains]
  | cons x xs ih =>
    simp [contains, ih, Bool.or_assoc]

theorem locate_eq_none_iff (s : List T) (v : T) :
    locate key v s = none ↔ ∀ x ∈ s, key x ≠ key v := by
  induction s with
  | nil => simp [locate]
  | cons x xs ih =>
    by_cases h : key x = key v
    · simp [locate, h]
    · simp [locate, h, ih]

theorem locate_eq_none_of_contains (s : List T) (v : T)
    (h : contains key s v = false) : locate key v s = none := by
  rw [locate_eq_none_iff]
  exact (contains_eq_false_iff key s v).1 h

theorem locate_eq_some (s : List T) (v : T) (i : Nat)
    (h : locate key v s = some i) :
    ∃ l1 a l2, s = l1 ++ a :: l2 ∧ l1.length = i ∧ key a = key v ∧
      ∀ x ∈ l1, key x ≠ key v := by
  induction s generalizing i with
  | nil => simp [locate] at h
  | cons x xs ih =>
    by_cases hx : key x = key v
    · simp [locate, hx] at h
      exact ⟨[], x, xs, by simp, by simp [← h], hx, by simp⟩
    · simp [locate, hx] at h
      obtain ⟨j, hj, hji⟩ := h
      obtain ⟨l1, a, l2, hs, hlen, ha, hall⟩ := ih j hj
      refine ⟨x :: l1, a, l2, by simp [hs], by simp [hlen, hji], ha, ?_⟩
      intro y hy
      rcases List.mem_cons.1 hy with rfl | hy
      · exact hx
      · exact hall y hy

theorem locate_append_cons (l1 l2 : List T) (a v : T)
    (ha : key a = key v) (hall : ∀ x ∈ l1, key x ≠ key v) :
    locate key v (l1 ++ a :: l2) = some l1.length := by
  induction l1 with
  | nil => simp [locate, ha]
  | cons x xs ih =>
    have hx : key x ≠ key v := hall x (by simp)
    have := ih (fun y hy => hall y (by simp [hy]))
    simp [locate, hx, this]

theorem getD_append_cons (l1 l2 : List T) (a d : T) :
    (l1 ++ a :: l2).getD l1.length d = a := by
  induction l1 with
  | nil => simp [List.getD]
  | cons x xs ih => simpa [List.getD] using ih

theorem eraseIdx_append_cons (l1 l2 : List T) (a : T) :
    (l1 ++ a :: l2).eraseIdx l1.length = l1 ++ l2 := by
  induction l1 with
  | nil => simp [List.eraseIdx]
  | cons x xs ih => simp [List.eraseIdx, ih]

theorem set_append_cons (l1 l2 : List T) (a b : T) :
    (l1 ++ a :: l2).set l1.length b = l1 ++ b :: l2 := by
  induction l1 with
  | nil => simp
  | cons x xs ih => simp [List.set, ih]

theorem distinctKeys_suffix (l t : List T)
    (h : distinctKeys key (l ++ t) = true) : distinctKeys key t = true := by
  induction l with
  | nil => exact h
  | cons x xs ih =>
    simp [distinctKeys] at h
    exact ih h.2

end Lemmas

section OrInsertHelpers

variable {T K : Type} (key : T → K) [DecidableEq K]

theorem locate_eq_some_of_contains (s : List T) (v : T)
    (h : contains key s v = true) : ∃ i, locate key v s = some i := by
  cases hl : locate key v s with
  | none =>
    obtain ⟨x, hx, hxk⟩ := (contains_eq_true_iff key s v).1 h
    exact absurd hxk ((locate_eq_none_iff key s v).1 hl x hx)
  | some i => exact ⟨i, rfl⟩

theorem or_insert_op_of_contains (s : List T) (v : T)
    (h : contains key s v = true) : or_insert_op key s v = s := by
  obtain ⟨i, hi⟩ := locate_eq_some_of_contains key s v h
  simp [or_insert_op, rustc_entry, hi, RustcEntry.or_insert]

theorem or_insert_op_of_not_contains (s : List T) (v : T)
    (h : contains key s v = false) : or_insert_op key s v = s ++ [v] := by
  have hl := locate_eq_none_of_contains key s v h
  simp [or_insert_op, rustc_entry, hl, RustcEntry.or_insert,
    RustcVacantEntry.insert, RustcVacantEntry.store]

theorem contains_or_insert_op (s : List T) (v : T) :
    contains key (or_insert_op key s v) v = true := by
  cases hc : contains key s v with
  | true => rw [or_insert_op_of_contains key s v hc]; exact hc
  | false =>
    rw [or_insert_op_of_not_contains key s v hc]
    simp [contains_append, contains]

end OrInsertHelpers

/-- C1: for every value not previously in the set, `rustc_entry` yields a
Vacant entry holding it, and after `insert` on that entry the set contains
the value and its length has increased by exactly one. -/
theorem C1_vacant_insert {T K : Type} (key : T → K) [DecidableEq K]
    (s : List T) (v : T) (h : contains key s v = false) :
    rustc_entry key s v = RustcEntry.Vacant ⟨s, v⟩ ∧
    contains key (RustcVacantEntry.insert ⟨s, v⟩) v = true ∧
    (RustcVacantEntry.insert (⟨s, v⟩ : RustcVacantEntry T)).length = s.length + 1 := by
  refine ⟨?_, ?_, ?_⟩
  · unfold rustc_entry
    rw [locate_eq_none_of_contains key s v h]
  · simp [RustcVacantEntry.insert, RustcVacantEntry.store, contains_append, contains]
  · simp [RustcVacantEntry.insert, RustcVacantEntry.store]

/-- Witness for C1 at a concrete input. -/
theorem C1_vacant_insert_witness :
    contains (fun n : Nat => n) [1, 2] 3 = false ∧
    (rustc_entry (fun n : Nat => n) [1, 2] 3 = RustcEntry.Vacant ⟨[1, 2], 3⟩ ∧
      contains (fun n : Nat => n) (RustcVacantEntry.insert ⟨[1, 2], 3⟩) 3 = true ∧
      (RustcVacantEntry.insert (⟨[1, 2], 3⟩ : RustcVacantEntry Nat)).length =
        [1, 2].length + 1) :=
  ⟨by decide, C1_vacant_insert (fun n : Nat => n) [1, 2] 3 (by decide)⟩

/-- C3: for every value already in the set, `rustc_entry` yields an Occupied
entry over the unchanged set, and `or_insert` on it is a no-op: the set's
contents, hence its length, are unchanged. -/
theorem C3_occupied_or_insert {T K : Type} (key : T → K) [DecidableEq K]
    (s : List T) (v : T) (h : contains key s v = true) :
    (∃ i, rustc_entry key s v = RustcEntry.Occupied ⟨s, i, v⟩) ∧
    or_insert_op key s v = s := by
  obtain ⟨i, hi⟩ := locate_eq_some_of_contains key s v h
  refine ⟨⟨i, ?_⟩, or_insert_op_of_contains key s v h⟩
  simp [rustc_entry, hi]

/-- Witness for C3 at a concrete input. -/
theorem C3_occupied_or_insert_witness :
    contains (fun n : Nat => n) [7, 9] 9 = true ∧
    ((∃ i, rustc_entry (fun n : Nat => n) [7, 9] 9 = RustcEntry.Occupied ⟨[7, 9], i, 9⟩) ∧
      or_insert_op (fun n : Nat => n) [7, 9] 9 = [7, 9]) :=
  ⟨by decide, C3_occupied_or_insert (fun n : Nat => n) [7, 9] 9 (by decide)⟩

/-- C4: `or_insert` is idempotent: performing it twice for the same value
leaves the set exactly as performing it once, and on an already-present
value it never duplicates it nor changes the existing storage. -/
theorem C4_or_insert_idempotent {T K : Type} (key : T → K) [DecidableEq K]
    (s : List T) (v : T) :
    or_insert_op key (or_insert_op key s v) v = or_insert_op key s v ∧
    (contains key s v = true → or_insert_op key s v = s) := by
  refine ⟨?_, or_insert_op_of_contains key s v⟩
  exact or_insert_op_of_contains key (or_insert_op key s v) v
    (contains_or_insert_op key s v)

/-- Witness for C4 at a concrete input. -/
theorem C4_or_insert_idempotent_witness :
    or_insert_op (fun n : Nat => n) (or_insert_op (fun n : Nat => n) [4] 6) 6 =
      or_insert_op (fun n : Nat => n) [4] 6 ∧
    (contains (fun n : Nat => n) [4] 6 = true →
      or_insert_op (fun n : Nat => n) [4] 6 = [4]) :=
  C4_or_insert_idempotent (fun n : Nat => n) [4] 6

/-- C5: round-trip: when `rustc_entry` yields a Vacant entry for `v`,
`insert_entry` followed by `remove` returns the queried value with the set
restored, and the set then does not contain `v`. -/
theorem C5_round_trip {T K : Type} (key : T → K) [DecidableEq K]
    (s : List T) (v : T)
    (h : rustc_entry key s v = RustcEntry.Vacant ⟨s, v⟩) :
    (RustcVacantEntry.insert_entry (⟨s, v⟩ : RustcVacantEntry T)).remove = (v, s) ∧
    contains key
      ((RustcVacantEntry.insert_entry (⟨s, v⟩ : RustcVacantEntry T)).remove).2 v =
      false := by
  have hnone : locate key v s = none := by
    cases hl : locate key v s with
    | none => rfl
    | some i => simp [rustc_entry, hl] at h
  have hc : contains key s v = false :=
    (contains_eq_false_iff key s v).2 ((locate_eq_none_iff key s v).1 hnone)
  have h1 : (s ++ [v]).getD s.length v = v := getD_append_cons s [] v v
  have h2 : (s ++ [v]).eraseIdx s.length = s := by
    have h3 := eraseIdx_append_cons s ([] : List T) v
    simpa using h3
  have hr : (RustcVacantEntry.insert_entry (⟨s, v⟩ : RustcVacantEntry T)).remove =
      (v, s) := by
    simp [RustcVacantEntry.insert_entry, RustcVacantEntry.store,
      RustcOccupiedEntry.remove, RustcOccupiedEntry.get, h1, h2]
  rw [hr]
  exact ⟨rfl, hc⟩

/-- Witness for C5 at a concrete input. -/
theorem C5_round_trip_witness :
    (RustcVacantEntry.insert_entry (⟨[5], 7⟩ : RustcVacantEntry Nat)).remove =
      (7, [5]) ∧
    contains (fun n : Nat => n)
      ((RustcVacantEntry.insert_entry (⟨[5], 7⟩ : RustcVacantEntry Nat)).remove).2 7 =
      false :=
  C5_round_trip (fun n : Nat => n) [5] 7 rfl

/-- C2: `RustcEntry::insert` yields an occupied handle: when the entry is
Occupied it is returned unchanged over the unmutated set; when Vacant the
held value is stored via `insert_entry`. Afterwards the set contains a
value equivalent to the query, its length grew by at most one (by zero in
the Occupied case), and the returned handle views an equivalent value. -/
theorem C2_entry_insert {T K : Type} (key : T → K) [DecidableEq K]
    (s : List T) (v : T) :
    contains key ((rustc_entry key s v).insert).elems v = true ∧
    ((rustc_entry key s v).insert).elems.length ≤ s.length + 1 ∧
    key ((rustc_entry key s v).insert).get = key v ∧
    (∀ oe, rustc_entry key s v = RustcEntry.Occupied oe →
      (rustc_entry key s v).insert = oe ∧ oe.elems = s) ∧
    (∀ ve, rustc_entry key s v = RustcEntry.Vacant ve →
      (rustc_entry key s v).insert = ve.insert_entry) := by
  cases hl : locate key v s with
  | some i =>
    obtain ⟨l1, a, l2, hs, hlen, ha, hall⟩ := locate_eq_some key s v i hl
    have he : rustc_entry key s v = RustcEntry.Occupied ⟨s, i, v⟩ := by
      simp [rustc_entry, hl]
    refine ⟨?_, ?_, ?_, ?_, ?_⟩
    · rw [he]
      subst hs
      simp [RustcEntry.insert, contains_append, contains, ha]
    · rw [he]
      simp [RustcEntry.insert]
    · rw [he]
      subst hs
      subst hlen
      show key ((l1 ++ a :: l2).getD l1.length v) = key v
      rw [getD_append_cons]
      exact ha
    · intro oe hoe
      rw [he] at hoe
      cases hoe
      rw [he]
      exact ⟨rfl, rfl⟩
    · intro ve hve
      rw [he] at hve
      exact RustcEntry.noConfusion hve
  | none =>
    have he : rustc_entry key s v = RustcEntry.Vacant ⟨s, v⟩ := by
      simp [rustc_entry, hl]
    have h1 : (s ++ [v]).getD s.length v = v := getD_append_cons s [] v v
    refine ⟨?_, ?_, ?_, ?_, ?_⟩
    · rw [he]
      simp [RustcEntry.insert, RustcVacantEntry.insert_entry, RustcVacantEntry.store,
        contains_append, contains]
    · rw [he]
      simp [RustcEntry.insert, RustcVacantEntry.insert_entry, RustcVacantEntry.store]
    · rw [he]
      simp [RustcEntry.insert, RustcVacantEntry.insert_entry, RustcVacantEntry.store,
        RustcOccupiedEntry.get, h1]
    · intro oe hoe
      rw [he] at hoe
      exact RustcEntry.noConfusion hoe
    · intro ve hve
      rw [he] at hve
      cases hve
      rw [he]
      rfl

/-- Witness for C2 at a concrete input. -/
theorem C2_entry_insert_witness :
    contains (fun n : Nat => n)
      ((rustc_entry (fun n : Nat => n) [1] 1).insert).elems 1 = true ∧
    ((rustc_entry (fun n : Nat => n) [1] 1).insert).elems.length ≤ [1].length + 1 ∧
    (fun n : Nat => n) ((rustc_entry (fun n : Nat => n) [1] 1).insert).get =
      (fun n : Nat => n) 1 ∧
    (∀ oe, rustc_entry (fun n : Nat => n) [1] 1 = RustcEntry.Occupied oe →
      (rustc_entry (fun n : Nat => n) [1] 1).insert = oe ∧ oe.elems = [1]) ∧
    (∀ ve, rustc_entry (fun n : Nat => n) [1] 1 = RustcEntry.Vacant ve →
      (rustc_entry (fun n : Nat => n) [1] 1).insert = ve.insert_entry) :=
  C2_entry_insert (fun n : Nat => n) [1] 1

/-- C6: replace semantics: with `v1` stored in the slot that the equivalent
query `v2` locates, `replace` on the Occupied entry returns `v1` and
overwrites the slot with `v2`; a fresh entry for any equivalent value `v3`
then views the `v2` representation through `get`. -/
theorem C6_replace {T K : Type} (key : T → K) [DecidableEq K]
    (l1 l2 : List T) (v1 v2 v3 : T)
    (ha : key v1 = key v2) (hall : ∀ x ∈ l1, key x ≠ key v2)
    (h3 : key v3 = key v2) :
    rustc_entry key (l1 ++ v1 :: l2) v2 =
      RustcEntry.Occupied ⟨l1 ++ v1 :: l2, l1.length, v2⟩ ∧
    RustcOccupiedEntry.replace ⟨l1 ++ v1 :: l2, l1.length, v2⟩ =
      (v1, l1 ++ v2 :: l2) ∧
    (rustc_entry key (l1 ++ v2 :: l2) v3).get = v2 := by
  have hfind := locate_append_cons key l1 l2 v1 v2 ha hall
  have hall3 : ∀ x ∈ l1, key x ≠ key v3 := by
    intro x hx
    rw [h3]
    exact hall x hx
  have hfind3 : locate key v3 (l1 ++ v2 :: l2) = some l1.length :=
    locate_append_cons key l1 l2 v2 v3 h3.symm hall3
  refine ⟨?_, ?_, ?_⟩
  · simp [rustc_entry, hfind]
  · show ((l1 ++ v1 :: l2).getD l1.length v2, (l1 ++ v1 :: l2).set l1.length v2) =
      (v1, l1 ++ v2 :: l2)
    rw [getD_append_cons, set_append_cons]
  · have he3 : rustc_entry key (l1 ++ v2 :: l2) v3 =
        RustcEntry.Occupied ⟨l1 ++ v2 :: l2, l1.length, v3⟩ := by
      simp [rustc_entry, hfind3]
    rw [he3]
    show (l1 ++ v2 :: l2).getD l1.length v3 = v2
    rw [getD_append_cons]

/-- Witness for C6 at a concrete input: pairs compared by first component,
so `(1, 10)` and `(1, 20)` are equivalent but distinct representations. -/
theorem C6_replace_witness :
    ((1, 10) : Nat × Nat).1 = ((1, 20) : Nat × Nat).1 ∧
    (rustc_entry (fun p : Nat × Nat => p.1) [(1, 10)] (1, 20) =
        RustcEntry.Occupied ⟨[(1, 10)], 0, (1, 20)⟩ ∧
      RustcOccupiedEntry.replace ⟨[(1, 10)], 0, (1, 20)⟩ =
        ((1, 10), [(1, 20)]) ∧
      (rustc_entry (fun p : Nat × Nat => p.1) [(1, 20)] (1, 30)).get = (1, 20)) :=
  ⟨rfl,
    C6_replace (fun p : Nat × Nat => p.1) [] [] (1, 10) (1, 20) (1, 30)
      rfl (by simp) rfl⟩

/-- C8: creating an entry has no side effects: the entry carries the set's
contents unchanged, and it is Occupied over the query exactly when an
equivalent value exists, else Vacant holding the queried value. -/
theorem C8_entry_frame {T K : Type} (key : T → K) [DecidableEq K]
    (s : List T) (v : T) :
    (rustc_entry key s v).elems = s ∧
    (contains key s v = true →
      ∃ i, rustc_entry key s v = RustcEntry.Occupied ⟨s, i, v⟩) ∧
    (contains key s v = false →
      rustc_entry key s v = RustcEntry.Vacant ⟨s, v⟩) := by
  refine ⟨?_, ?_, ?_⟩
  · cases hl : locate key v s with
    | some i => simp [rustc_entry, hl, RustcEntry.elems]
    | none => simp [rustc_entry, hl, RustcEntry.elems]
  · intro h
    obtain ⟨i, hi⟩ := locate_eq_some_of_contains key s v h
    exact ⟨i, by simp [rustc_entry, hi]⟩
  · intro h
    simp [rustc_entry, locate_eq_none_of_contains key s v h]

/-- Witness for C8 at a concrete input. -/
theorem C8_entry_frame_witness :
    (rustc_entry (fun n : Nat => n) [2] 2).elems = [2] ∧
    (contains (fun n : Nat => n) [2] 2 = true →
      ∃ i, rustc_entry (fun n : Nat => n) [2] 2 = RustcEntry.Occupied ⟨[2], i, 2⟩) ∧
    (contains (fun n : Nat => n) [2] 2 = false →
      rustc_entry (fun n : Nat => n) [2] 2 = RustcEntry.Vacant ⟨[2], 2⟩) :=
  C8_entry_frame (fun n : Nat => n) [2] 2

/-- C7: `remove` on an Occupied entry obtained from `rustc_entry` returns a
stored member equivalent to the query; the set's length decreases by
exactly one, and every value equivalent to the removed one is reported
absent afterwards (given the hash-set invariant that stored values are
pairwise inequivalent). -/
theorem C7_remove {T K : Type} (key : T → K) [DecidableEq K]
    (s : List T) (v : T) (oe : RustcOccupiedEntry T)
    (hd : distinctKeys key s = true)
    (h : rustc_entry key s v = RustcEntry.Occupied oe) :
    (oe.remove).1 ∈ s ∧ key (oe.remove).1 = key v ∧
    (oe.remove).2.length + 1 = s.length ∧
    ∀ w, key w = key v → contains key (oe.remove).2 w = false := by
  cases hl : locate key v s with
  | none => simp [rustc_entry, hl] at h
  | some i =>
    have he : rustc_entry key s v = RustcEntry.Occupied ⟨s, i, v⟩ := by
      simp [rustc_entry, hl]
    rw [he] at h
    injection h with h2
    subst h2
    obtain ⟨l1, a, l2, hs, hlen, ha, hall⟩ := locate_eq_some key s v i hl
    subst hs
    subst hlen
    have hget : (⟨l1 ++ a :: l2, l1.length, v⟩ : RustcOccupiedEntry T).remove =
        (a, l1 ++ l2) := by
      show ((l1 ++ a :: l2).getD l1.length v, (l1 ++ a :: l2).eraseIdx l1.length) =
        (a, l1 ++ l2)
      rw [getD_append_cons, eraseIdx_append_cons]
    rw [hget]
    refine ⟨by simp, ha, by simp [Nat.add_assoc], ?_⟩
    intro w hw
    rw [contains_eq_false_iff]
    intro x hx
    rcases List.mem_append.1 hx with hx1 | hx2
    · rw [hw]
      exact hall x hx1
    · have hsuf : distinctKeys key (a :: l2) = true :=
        distinctKeys_suffix key l1 (a :: l2) hd
      have hca : contains key l2 a = false := by
        simp [distinctKeys] at hsuf
        exact hsuf.1
      have hxa := (contains_eq_false_iff key l2 a).1 hca x hx2
      rw [hw, ← ha]
      exact hxa

/-- Witness for C7 at a concrete input. -/
theorem C7_remove_witness :
    distinctKeys (fun n : Nat => n) [4] = true ∧
    rustc_entry (fun n : Nat => n) [4] 4 = RustcEntry.Occupied ⟨[4], 0, 4⟩ ∧
    (((⟨[4], 0, 4⟩ : RustcOccupiedEntry Nat).remove).1 ∈ [4] ∧
      (fun n : Nat => n) ((⟨[4], 0, 4⟩ : RustcOccupiedEntry Nat).remove).1 =
        (fun n : Nat => n) 4 ∧
      ((⟨[4], 0, 4⟩ : RustcOccupiedEntry Nat).remove).2.length + 1 = [4].length ∧
      ∀ w, (fun n : Nat => n) w = (fun n : Nat => n) 4 →
        contains (fun n : Nat => n)
          ((⟨[4], 0, 4⟩ : RustcOccupiedEntry Nat).remove).2 w = false) :=
  ⟨by decide, rfl, C7_remove (fun n : Nat => n) [4] 4 ⟨[4], 0, 4⟩ (by decide) rfl⟩

/-- C9: frame property of the mutations: every stored value not equivalent
to the query survives `insert`, `insert_entry`, `remove` and `replace`
with its representation unchanged. -/
theorem C9_mutation_frame {T K : Type} (key : T → K) [DecidableEq K]
    (s : List T) (v w : T) (hw : w ∈ s) (hk : key w ≠ key v) :
    (∀ ve, rustc_entry key s v = RustcEntry.Vacant ve →
      w ∈ ve.insert ∧ w ∈ (ve.insert_entry).elems) ∧
    (∀ oe, rustc_entry key s v = RustcEntry.Occupied oe →
      w ∈ (oe.remove).2 ∧ w ∈ (oe.replace).2) := by
  cases hl : locate key v s with
  | none =>
    have he : rustc_entry key s v = RustcEntry.Vacant ⟨s, v⟩ := by
      simp [rustc_entry, hl]
    constructor
    · intro ve hve
      rw [he] at hve
      injection hve with h2
      subst h2
      constructor
      · show w ∈ s ++ [v]
        exact List.mem_append.2 (Or.inl hw)
      · show w ∈ s ++ [v]
        exact List.mem_append.2 (Or.inl hw)
    · intro oe hoe
      rw [he] at hoe
      exact RustcEntry.noConfusion hoe
  | some i =>
    have he : rustc_entry key s v = RustcEntry.Occupied ⟨s, i, v⟩ := by
      simp [rustc_entry, hl]
    obtain ⟨l1, a, l2, hs, hlen, ha, hall⟩ := locate_eq_some key s v i hl
    constructor
    · intro ve hve
      rw [he] at hve
      exact RustcEntry.noConfusion hve
    · intro oe hoe
      rw [he] at hoe
      injection hoe with h2
      subst h2
      subst hs
      subst hlen
      have hw2 : w ∈ l1 ∨ w ∈ l2 := by
        rcases List.mem_append.1 hw with h1 | h1
        · exact Or.inl h1
        · rcases List.mem_cons.1 h1 with rfl | h1
          · exact absurd ha hk
          · exact Or.inr h1
      constructor
      · show w ∈ (l1 ++ a :: l2).eraseIdx l1.length
        rw [eraseIdx_append_cons]
        exact List.mem_append.2 hw2
      · show w ∈ (l1 ++ a :: l2).set l1.length v
        rw [set_append_cons]
        rcases hw2 with h1 | h1
        · exact List.mem_append.2 (Or.inl h1)
        · exact List.mem_append.2 (Or.inr (List.mem_cons.2 (Or.inr h1)))

/-- Witness for C9 at a concrete input. -/
theorem C9_mutation_frame_witness :
    (2 : Nat) ∈ [1, 2] ∧ (fun n : Nat => n) 2 ≠ (fun n : Nat => n) 1 ∧
    ((∀ ve, rustc_entry (fun n : Nat => n) [1, 2] 1 = RustcEntry.Vacant ve →
        2 ∈ ve.insert ∧ 2 ∈ (ve.insert_entry).elems) ∧
      (∀ oe, rustc_entry (fun n : Nat => n) [1, 2] 1 = RustcEntry.Occupied oe →
        2 ∈ (oe.remove).2 ∧ 2 ∈ (oe.replace).2)) :=
  ⟨by decide, by decide,
    C9_mutation_frame (fun n : Nat => n) [1, 2] 1 2 (by decide) (by decide)⟩

/-- C10: `replace` on an Occupied entry leaves the set's length unchanged
and its membership up to equivalence unchanged: every query is contained
afterwards exactly as before; only the stored representative is swapped. -/
theorem C10_replace_frame {T K : Type} (key : T → K) [DecidableEq K]
    (s : List T) (v : T) (oe : RustcOccupiedEntry T)
    (h : rustc_entry key s v = RustcEntry.Occupied oe) :
    (oe.replace).2.length = s.length ∧
    ∀ w, contains key (oe.replace).2 w = contains key s w := by
  cases hl : locate key v s with
  | none => simp [rustc_entry, hl] at h
  | some i =>
    have he : rustc_entry key s v = RustcEntry.Occupied ⟨s, i, v⟩ := by
      simp [rustc_entry, hl]
    rw [he] at h
    injection h with h2
    subst h2
    obtain ⟨l1, a, l2, hs, hlen, ha, hall⟩ := locate_eq_some key s v i hl
    subst hs
    subst hlen
    have hset : (⟨l1 ++ a :: l2, l1.length, v⟩ : RustcOccupiedEntry T).replace =
        ((l1 ++ a :: l2).getD l1.length v, l1 ++ v :: l2) := by
      show ((l1 ++ a :: l2).getD l1.length v, (l1 ++ a :: l2).set l1.length v) =
        ((l1 ++ a :: l2).getD l1.length v, l1 ++ v :: l2)
      rw [set_append_cons]
    rw [hset]
    constructor
    · simp
    · intro w
      rw [contains_append, contains_append]
      simp [contains, ha]

/-- Witness for C10 at a concrete input. -/
theorem C10_replace_frame_witness :
    ((⟨[(1, 10)], 0, (1, 20)⟩ : RustcOccupiedEntry (Nat × Nat)).replace).2.length =
      [((1 : Nat), (10 : Nat))].length ∧
    ∀ w, contains (fun p : Nat × Nat => p.1)
        ((⟨[(1, 10)], 0, (1, 20)⟩ : RustcOccupiedEntry (Nat × Nat)).replace).2 w =
      contains (fun p : Nat × Nat => p.1) [(1, 10)] w :=
  C10_replace_frame (fun p : Nat × Nat => p.1) [(1, 10)] (1, 20)
    ⟨[(1, 10)], 0, (1, 20)⟩ rfl
